import Mathlib

/-!
Verification of the go-hyperliquid client library's wire codec, signer
helpers, nonce generator, action dispatcher and WebSocket backoff against
its specification.  Go functions are shallowly embedded: byte slices
become `List ℕ` (each entry `< 256`), Go strings become `List Char`,
machine integers become `ℤ`/`ℕ`, float64 arithmetic is modelled over the
exact rationals `ℚ`, and fallible/panicking code returns `Option`/`Except`.
The external keccak256 primitive is passed as a function parameter.
-/

namespace Hyperliquid

/-! ## Canonical wire codec (signing.go) -/

/-- Embeds the loop body of `convertStr16ToStr8` (signing.go).  The Go loop
walks an index `i` over the byte slice; here the unscanned suffix is the
list argument and `fuel` bounds the number of loop iterations (each
iteration consumes at least one byte, so fuel equal to the initial length
is never exhausted).  A `0xda` byte with at least two following bytes is
read as a str16 header: if its 2-byte big-endian length is `< 256` the
header is rewritten to `0xd9 len` and `len` body bytes are copied verbatim
when available (the Go code skips the copy when fewer than `len` bytes
remain, leaving the remainder to be rescanned); otherwise the byte is
copied and scanning resumes at the next byte. -/
def convertAux : ℕ → List ℕ → List ℕ
  | 0, rest => rest
  | fuel + 1, b :: rest =>
    if b = 0xda then
      match rest with
      | h :: l :: rest2 =>
        let len := (h <<< 8) ||| l
        if len < 256 then
          if len ≤ rest2.length then
            0xd9 :: len :: (rest2.take len ++ convertAux fuel (rest2.drop len))
          else
            0xd9 :: len :: convertAux fuel rest2
        else
          b :: convertAux fuel rest
      | _ => b :: convertAux fuel rest
    else
      b :: convertAux fuel rest
  | _ + 1, [] => []

/-- Embeds `convertStr16ToStr8` (signing.go): the post-pass run over the
msgpack-packed action bytes before hashing. -/
def convertStr16ToStr8 (data : List ℕ) : List ℕ :=
  convertAux data.length data

/-- Embeds `binary.BigEndian.PutUint64`: a non-negative integer as 8
big-endian bytes. -/
def be8 (n : ℕ) : List ℕ :=
  [n / 2 ^ 56 % 256, n / 2 ^ 48 % 256, n / 2 ^ 40 % 256, n / 2 ^ 32 % 256,
   n / 2 ^ 24 % 256, n / 2 ^ 16 % 256, n / 2 ^ 8 % 256, n % 256]

/-- Embeds Go `encoding/hex` digit recognition (`fromHexChar`): ASCII
`0-9`, `a-f`, `A-F`. -/
def isHexDigitChar (c : Char) : Bool :=
  (decide ('0' ≤ c) && decide (c ≤ '9')) ||
  (decide ('a' ≤ c) && decide (c ≤ 'f')) ||
  (decide ('A' ≤ c) && decide (c ≤ 'F'))

/-- Numeric value of a hex digit (`fromHexChar`); 0 on non-digits, which
the callers below never rely on. -/
def hexVal (c : Char) : ℕ :=
  if decide ('0' ≤ c) && decide (c ≤ '9') then c.toNat - 48
  else if decide ('a' ≤ c) && decide (c ≤ 'f') then c.toNat - 97 + 10
  else if decide ('A' ≤ c) && decide (c ≤ 'F') then c.toNat - 65 + 10
  else 0

/-- Embeds `hex.DecodeString` as used with its error ignored: bytes are
decoded pairwise until a non-hex character or a dangling final character
is hit, and the successfully decoded prefix is returned. -/
def hexDecodeLoop : List Char → List ℕ
  | a :: b :: rest =>
    if isHexDigitChar a && isHexDigitChar b then
      (hexVal a * 16 + hexVal b) :: hexDecodeLoop rest
    else []
  | [_] => []
  | [] => []

/-- Embeds `strings.TrimPrefix(address, "0x")`. -/
def trim0x : List Char → List Char
  | '0' :: 'x' :: rest => rest
  | s => s

/-- Embeds `addressToBytes` (signing.go): trim an optional `0x` prefix and
hex-decode, ignoring the decode error. -/
def addressToBytes (address : List Char) : List ℕ :=
  hexDecodeLoop (trim0x address)

/-- Spec-side pairwise hex decoding ("Addresses are decoded from an
optional 0x-prefixed hex string to 20 raw bytes"): decodes consecutive
digit pairs with no validity bookkeeping; meaningful on well-formed hex. -/
def specHexDecode : List Char → List ℕ
  | a :: b :: rest => (hexVal a * 16 + hexVal b) :: specHexDecode rest
  | [_] => []
  | [] => []

/-- A well-formed wire address: after stripping the optional `0x` prefix,
exactly 40 hex digits. -/
def isValidAddress (address : List Char) : Bool :=
  (trim0x address).length = 40 && (trim0x address).all isHexDigitChar

/-- Embeds `actionHash` (signing.go).  `keccak` stands for the external
`crypto.Keccak256`; `packed` is the msgpack encoding of the action
produced by the encoder.  The two `panic` branches (negative nonce,
negative expiry) are modelled as `none`. -/
def actionHash (keccak : List ℕ → List ℕ) (packed : List ℕ)
    (vaultAddress : List Char) (nonce : ℤ) (expiresAfter : Option ℤ) :
    Option (List ℕ) :=
  let data := convertStr16ToStr8 packed
  if nonce < 0 then none
  else
    let data := data ++ be8 nonce.toNat
    let data := data ++
      (if vaultAddress = [] then [0x00] else 0x01 :: addressToBytes vaultAddress)
    match expiresAfter with
    | none => some (keccak data)
    | some e =>
      if e < 0 then none
      else some (keccak (data ++ 0x00 :: be8 e.toNat))

/-- The digest as the claim states it: keccak256 of the canonically packed
action bytes (the codec's packed output after the str16-to-str8 header
normalization), then the nonce as 8 big-endian bytes, then the vault tag
(`0x00` for the empty vault, otherwise `0x01` followed by the bytes
decoded from the 0x-prefixed hex address), then, only when an expiry is
present, a `0x00` byte and the expiry as 8 big-endian bytes. -/
def actionHashSpec (keccak : List ℕ → List ℕ) (packed : List ℕ)
    (vaultAddress : List Char) (nonce : ℕ) (expiresAfter : Option ℕ) :
    List ℕ :=
  keccak (convertStr16ToStr8 packed ++ be8 nonce ++
    (if vaultAddress = [] then [0x00]
     else 0x01 :: specHexDecode (trim0x vaultAddress)) ++
    (match expiresAfter with
     | none => []
     | some e => 0x00 :: be8 e))

/-! ## Price rounding (utils.go), float64 modelled as exact rationals -/

/-- Digit-count loop of `roundToSignificantFigures`: `for temp > 0 { temp
/= 10; n++ }`, with structural fuel (one iteration consumes one fuel unit
and the loop runs at most `n` times for `temp = n`). -/
def countDigitsAux : ℕ → ℕ → ℕ
  | 0, _ => 0
  | fuel + 1, n => if n = 0 then 0 else countDigitsAux fuel (n / 10) + 1

/-- Number of base-10 digits of `n` as counted by the Go loop (0 for 0). -/
def countDigits (n : ℕ) : ℕ :=
  countDigitsAux n n

/-- Embeds `math.Round`: round half away from zero to an integer. -/
def goRound (x : ℚ) : ℤ :=
  if x < 0 then -⌊-x + 1 / 2⌋ else ⌊x + 1 / 2⌋

/-- Embeds `roundToDecimals` (utils.go): `math.Round(value*pow) / pow`
with `pow = 10^decimals`. -/
def roundToDecimals (value : ℚ) (decimals : ℤ) : ℚ :=
  ((goRound (value * (10 : ℚ) ^ decimals) : ℚ)) / (10 : ℚ) ^ decimals

/-- Embeds `roundToSignificantFigures` (utils.go) over exact rationals.
The Go function also returns an always-`nil` error, elided here.
`math.Copysign(m, price)` with `m ≥ 0` is `if price < 0 then -m else m`. -/
def roundToSignificantFigures (price : ℚ) (sigFigs : ℤ) : ℚ :=
  if price = 0 then 0
  else
    let absPrice := |price|
    let integerPart : ℤ := ⌊absPrice⌋
    let numIntegerDigits : ℤ :=
      if integerPart > 0 then (countDigits integerPart.toNat : ℤ) else 1
    if numIntegerDigits ≥ sigFigs then
      if price < 0 then -(integerPart : ℚ) else (integerPart : ℚ)
    else
      let rounded := roundToDecimals absPrice (sigFigs - numIntegerDigits)
      if price < 0 then -rounded else rounded

/-- Round half away from zero, stated as the claim states it (on the
absolute value, sign reattached). -/
def specRound (x : ℚ) : ℤ :=
  if x < 0 then -⌊|x| + 1 / 2⌋ else ⌊|x| + 1 / 2⌋

/-- The claim's integer-digit count of `price`: the number of base-10
digits of `⌊|price|⌋`, counted as 1 when `|price| < 1`. -/
def sigFigDigitCount (price : ℚ) : ℕ :=
  if |price| < 1 then 1 else (Nat.digits 10 ⌊|price|⌋.toNat).length

/-- Sig-fig rounding as the claim states it: zero maps to zero; when the
integer-digit count reaches `sigFigs` the result is
`sign(price) * ⌊|price|⌋` exactly; otherwise `|price|` is rounded half
away from zero to `sigFigs - digitCount` decimal places and the sign is
restored. -/
def sigFigSpec (price : ℚ) (sigFigs : ℕ) : ℚ :=
  if price = 0 then 0
  else
    let sgn : ℚ := if price < 0 then -1 else 1
    let dc := sigFigDigitCount price
    if sigFigs ≤ dc then sgn * (⌊|price|⌋ : ℚ)
    else
      let d := sigFigs - dc
      sgn * ((specRound (|price| * (10 : ℚ) ^ d) : ℚ) / (10 : ℚ) ^ d)

/-! ## Client order id normalization (cloid.go) -/

/-- Embeds `strings.HasPrefix(s, "0x")`. -/
def startsWith0x : List Char → Bool
  | '0' :: 'x' :: _ => true
  | _ => false

/-- Success condition of `hex.DecodeString`: even length and every
character a hex digit. -/
def hexDecodeOk (s : List Char) : Bool :=
  s.length % 2 = 0 && s.all isHexDigitChar

/-- Embeds `normalizeCloid` (cloid.go).  A Go `*string` is an
`Option (List Char)`; a `nil`/empty cloid passes through as `none`.
Otherwise a missing `0x` prefix is added, the total length must be 34
(`0x` plus 32 hex characters) and the body must hex-decode; the
normalized value is returned with the prefix.  The error message is not
modelled (`Except Unit`). -/
def normalizeCloid (cloid : Option (List Char)) :
    Except Unit (Option (List Char)) :=
  match cloid with
  | none => .ok none
  | some s =>
    if s = [] then .ok none
    else
      let cloidValue := if startsWith0x s then s else '0' :: 'x' :: s
      if cloidValue.length ≠ 34 then .error ()
      else if ¬ hexDecodeOk (cloidValue.drop 2) then .error ()
      else .ok (some cloidValue)

/-! ## Lenient EIP-712 struct hashing (signing.go) -/

/-- One entry of a primary type's field list (`apitypes.Type`). -/
structure TDField where
  name : String
  typ : String
deriving DecidableEq

/-- Insertion into a Go `map[string]any`, the map modelled as a lookup
function. -/
def insertField {α : Type} (k : String) (v : α) (m : String → Option α) :
    String → Option α :=
  fun j => if j = k then some v else m j

/-- Embeds the filtering loop of `hashStructLenient` (signing.go): iterate
over the declared fields and copy into a fresh map exactly those keys the
message defines. -/
def filteredMessage {α : Type} (types : List TDField)
    (message : String → Option α) : String → Option α :=
  types.foldl
    (fun acc t =>
      match message t.name with
      | some v => insertField t.name v acc
      | none => acc)
    (fun _ => none)

/-- Embeds `hashStructLenient` (signing.go): the external
`TypedData.HashStruct` is the parameter `hashStruct`; the lenient variant
applies it to the message filtered down to the declared fields of the
primary type. -/
def hashStructLenient {α β : Type} (hashStruct : String → (String → Option α) → β)
    (types : String → List TDField) (primaryType : String)
    (message : String → Option α) : β :=
  hashStruct primaryType (filteredMessage (types primaryType) message)

/-- Embeds the two field insertions of `SignUserSignedAction`
(signing.go): `signatureChainId = "0x66eee"` and
`hyperliquidChain = "Mainnet"/"Testnet"`. -/
def signUserSignedAugment (action : String → Option String)
    (isMainnet : Bool) : String → Option String :=
  insertField "hyperliquidChain" (if isMainnet then "Mainnet" else "Testnet")
    (insertField "signatureChainId" "0x66eee" action)

/-- The `payloadTypes` list of `SignAgent` (signing.go): the declared
fields of primary type `HyperliquidTransaction:ApproveAgent`. -/
def signAgentPayloadTypes : List TDField :=
  [⟨"hyperliquidChain", "string"⟩, ⟨"agentAddress", "address"⟩,
   ⟨"agentName", "string"⟩, ⟨"nonce", "uint64"⟩]

/-! ## Nonce generator (exchange.go) -/

/-- Embeds one successful pass of the `nextNonce` compare-and-swap loop
(exchange.go): with published value `last` and clock reading `now`, the
returned and newly published nonce.  The CAS loop retries until the load
and the swap see the same value, so every successful call is one atomic
application of this step; concurrent executions linearize into a sequence
of such steps. -/
def nextNonce (last now : ℤ) : ℤ :=
  if now ≤ last then last + 1 else now

/-- The nonces returned by a sequence of `nextNonce` calls with clock
readings `nows`, starting from published value `last`
(`SetLastNonce last` seeds exactly this state). -/
def nextNonceRun (last : ℤ) : List ℤ → List ℤ
  | [] => []
  | now :: rest =>
    let c := nextNonce last now
    c :: nextNonceRun c rest

/-! ## Action dispatcher envelope (exchange.go `postAction`) -/

/-- The shape of the `action any` argument as `postAction` inspects it:
either the type assertion `action.(map[string]any)` succeeds — then
`typeField` is the map's `"type"` entry when that entry is a string, and
`none` when the key is absent or non-string — or the action is a struct
value whose declared type tag is `typeField`. -/
inductive PostedAction where
  | mapAction (typeField : Option String)
  | structAction (typeField : String)
deriving DecidableEq

/-- The `vaultAddress` entry of the request envelope. -/
inductive VaultField where
  | absent
  | null
  | vault (s : String)
deriving DecidableEq

/-- Embeds the `vaultAddress` logic of `postAction` (exchange.go): the key
is only written when a vault is configured; for map actions it is `null`
exactly when the `"type"` entry equals `"usdClassTransfer"`, and for
struct actions the code assumes the action is not a class transfer and
always attaches the vault. -/
def postActionVaultField (vaultCfg : String) (action : PostedAction) :
    VaultField :=
  if vaultCfg = "" then .absent
  else
    match action with
    | .mapAction t =>
      if t ≠ some "usdClassTransfer" then .vault vaultCfg else .null
    | .structAction _ => .vault vaultCfg

/-- The type tag of a posted action, for stating the claim: the map's
`"type"` entry or the struct's type field. -/
def postedActionType : PostedAction → Option String
  | .mapAction t => t
  | .structAction t => some t

/-- The envelope rule as the claim states it: `null` whenever the action's
type is `usdClassTransfer` (and a vault is configured), absent when no
vault is configured, the configured vault otherwise. -/
def claimVaultField (vaultCfg : String) (action : PostedAction) :
    VaultField :=
  if vaultCfg = "" then .absent
  else if postedActionType action = some "usdClassTransfer" then .null
  else .vault vaultCfg

/-- The envelope rule as the code actually implements it: as the claim
says for map actions, but a non-map (struct) action always gets the
configured vault attached, whatever its type tag. -/
def amendedVaultField (vaultCfg : String) (action : PostedAction) :
    VaultField :=
  if vaultCfg = "" then .absent
  else
    match action with
    | .mapAction t => if t = some "usdClassTransfer" then .null else .vault vaultCfg
    | .structAction _ => .vault vaultCfg

/-! ## WebSocket reconnect backoff (ws.go) -/

/-- The backoff cap: `time.Minute`, in milliseconds. -/
def backoffCap : ℕ := 60000

/-- Embeds the post-sleep update of `reconnect` (ws.go):
`reconnectWait *= 2; if reconnectWait > time.Minute { reconnectWait =
time.Minute }`. -/
def backoffStep (w : ℕ) : ℕ :=
  if w * 2 > backoffCap then backoffCap else w * 2

/-- The `reconnectWait` value a fresh client starts with
(`NewWebsocketClient`, ws.go): `time.Second`, in milliseconds. -/
def initialReconnectWait : ℕ := 1000

/-- Embeds one episode of the `reconnect` loop (ws.go): with `failures`
failed `Connect` attempts before the first success and entry state `w` of
`reconnectWait`, returns the list of sleeps performed (the loop sleeps
the current wait after each failure, then doubles it with the cap) and
the value `reconnectWait` holds when the episode ends.  The loop body
contains no write that restores `reconnectWait` on success. -/
def reconnectRun (failures : ℕ) (w : ℕ) : List ℕ × ℕ :=
  match failures with
  | 0 => ([], w)
  | f + 1 =>
    let r := reconnectRun f (backoffStep w)
    (w :: r.1, r.2)

/-! ## Helper lemmas -/

theorem countDigitsAux_eq (fuel : ℕ) :
    ∀ n : ℕ, n ≤ fuel → countDigitsAux fuel n = (Nat.digits 10 n).length := by
  induction fuel with
  | zero =>
    intro n hn
    interval_cases n
    simp [countDigitsAux]
  | succ f ih =>
    intro n hn
    by_cases h0 : n = 0
    · simp [countDigitsAux, h0]
    · rw [countDigitsAux, if_neg h0,
        Nat.digits_def' (by norm_num : 1 < 10) (Nat.pos_of_ne_zero h0)]
      simp only [List.length_cons]
      rw [ih (n / 10) (by have := Nat.div_le_self n 10; omega)]

theorem countDigits_eq (n : ℕ) : countDigits n = (Nat.digits 10 n).length :=
  countDigitsAux_eq n n le_rfl

theorem specRound_eq (x : ℚ) : specRound x = goRound x := by
  unfold specRound goRound
  by_cases hx : x < 0
  · rw [if_pos hx, if_pos hx, abs_of_neg hx]
  · rw [if_neg hx, if_neg hx, abs_of_nonneg (not_lt.mp hx)]

theorem rtsf_eq_spec (price : ℚ) (s : ℕ) :
    roundToSignificantFigures price (s : ℤ) = sigFigSpec price s := by
  simp only [roundToSignificantFigures, sigFigSpec, sigFigDigitCount, roundToDecimals]
  by_cases hp : price = 0
  · simp [hp]
  rw [if_neg hp, if_neg hp]
  by_cases h1 : |price| < 1
  · -- integer part is zero, so the digit count is taken to be 1
    have hfl : ⌊|price|⌋ = 0 := by
      rw [Int.floor_eq_zero_iff]
      exact ⟨abs_nonneg price, h1⟩
    rw [hfl, if_pos h1]
    simp only [gt_iff_lt, lt_irrefl, if_false]
    by_cases hs : (1 : ℤ) ≥ (s : ℤ)
    · have hs2 : s ≤ 1 := by exact_mod_cast hs
      rw [if_pos hs, if_pos hs2]
      simp
    · have hs2 : ¬ s ≤ 1 := by
        intro h
        exact hs (by exact_mod_cast h)
      rw [if_neg hs, if_neg hs2]
      have hcast : ((s : ℤ) - 1) = ((s - 1 : ℕ) : ℤ) := by omega
      rw [hcast, zpow_natCast, specRound_eq]
      by_cases hneg : price < 0
      · rw [if_pos hneg, if_pos hneg]
        ring
      · rw [if_neg hneg, if_neg hneg]
        ring
  · -- integer part positive: the Go digit loop equals the digit count
    have hfl : 0 < ⌊|price|⌋ := by
      have h2 : (1 : ℚ) ≤ |price| := not_lt.mp h1
      have h3 := Int.le_floor.mpr (by exact_mod_cast h2 : ((1 : ℤ) : ℚ) ≤ |price|)
      omega
    rw [if_neg h1, if_pos hfl, countDigits_eq]
    set dc := (Nat.digits 10 ⌊|price|⌋.toNat).length with hdc
    by_cases hs : (dc : ℤ) ≥ (s : ℤ)
    · have hs2 : s ≤ dc := by exact_mod_cast hs
      rw [if_pos hs, if_pos hs2]
      by_cases hneg : price < 0
      · rw [if_pos hneg, if_pos hneg]
        ring
      · rw [if_neg hneg, if_neg hneg]
        ring
    · have hs2 : ¬ s ≤ dc := by
        intro h
        exact hs (by exact_mod_cast h)
      rw [if_neg hs, if_neg hs2]
      have hcast : ((s : ℤ) - (dc : ℤ)) = ((s - dc : ℕ) : ℤ) := by omega
      rw [hcast, zpow_natCast, specRound_eq]
      by_cases hneg : price < 0
      · rw [if_pos hneg, if_pos hneg]
        ring
      · rw [if_neg hneg, if_neg hneg]
        ring

theorem hexDecodeLoop_eq_spec (cs : List Char) (h : cs.all isHexDigitChar) :
    hexDecodeLoop cs = specHexDecode cs := by
  induction cs using hexDecodeLoop.induct with
  | case1 a b rest hab ih =>
    rw [hexDecodeLoop, specHexDecode, if_pos hab]
    simp only [List.all_cons, Bool.and_eq_true] at h
    rw [ih h.2.2]
  | case2 a b rest hab =>
    simp only [List.all_cons, Bool.and_eq_true] at h
    exact absurd (by rw [h.1, h.2.1]; rfl) hab
  | case3 a => rfl
  | case4 => rfl

theorem specHexDecode_length (cs : List Char) :
    (specHexDecode cs).length = cs.length / 2 := by
  induction cs using specHexDecode.induct with
  | case1 a b rest ih =>
    simp only [specHexDecode, List.length_cons, ih]
    omega
  | case2 a => simp [specHexDecode]
  | case3 => simp [specHexDecode]

/-! ## Claim theorems -/

/-- C1: for every packed action, well-formed vault address, non-negative
nonce and (optional) non-negative expiry, `actionHash` is keccak256 of the
canonically packed action bytes, then the nonce as 8 big-endian bytes,
then the vault tag (`0x00` for the empty vault, `0x01` followed by the 20
bytes decoded from the optional `0x`-prefixed hex address otherwise),
then, only when the expiry is present, a `0x00` byte and the expiry as 8
big-endian bytes; and the decoded vault address is exactly 20 bytes. -/
theorem claim_C1_actionHash (keccak : List ℕ → List ℕ) (packed : List ℕ)
    (vault : List Char) (nonce : ℤ) (expiry : Option ℤ)
    (hv : vault = [] ∨ isValidAddress vault = true)
    (hn : 0 ≤ nonce)
    (he : ∀ e, expiry = some e → 0 ≤ e) :
    actionHash keccak packed vault nonce expiry
      = some (actionHashSpec keccak packed vault nonce.toNat (expiry.map Int.toNat))
    ∧ (vault ≠ [] → (specHexDecode (trim0x vault)).length = 20) := by
  have haddr : vault ≠ [] → addressToBytes vault = specHexDecode (trim0x vault) := by
    intro hne
    rcases hv with h | h
    · exact absurd h hne
    · unfold isValidAddress at h
      simp only [Bool.and_eq_true, decide_eq_true_eq] at h
      exact hexDecodeLoop_eq_spec (trim0x vault) h.2
  have hlen : vault ≠ [] → (specHexDecode (trim0x vault)).length = 20 := by
    intro hne
    rcases hv with h | h
    · exact absurd h hne
    · unfold isValidAddress at h
      simp only [Bool.and_eq_true, decide_eq_true_eq] at h
      rw [specHexDecode_length, h.1]
  refine ⟨?_, hlen⟩
  unfold actionHash actionHashSpec
  rw [if_neg (by omega : ¬ nonce < 0)]
  by_cases hvz : vault = []
  · rw [if_pos hvz, if_pos hvz]
    cases expiry with
    | none => simp
    | some e =>
      simp only [Option.map_some']
      rw [if_neg (by have := he e rfl; omega : ¬ e < 0)]
  · rw [if_neg hvz, if_neg hvz, haddr hvz]
    cases expiry with
    | none => simp
    | some e =>
      simp only [Option.map_some']
      rw [if_neg (by have := he e rfl; omega : ¬ e < 0)]

/-- Witness for C1 at a concrete input: identity in place of keccak, a
4-byte packed action, a 42-character vault address, nonce 5 and expiry 3. -/
theorem claim_C1_actionHash_witness :
    (('0' :: 'x' :: List.replicate 40 'a') = ([] : List Char)
      ∨ isValidAddress ('0' :: 'x' :: List.replicate 40 'a') = true)
    ∧ (0 : ℤ) ≤ 5
    ∧ actionHash (fun l => l) [0x81, 0xa1, 0x61, 0x01]
        ('0' :: 'x' :: List.replicate 40 'a') 5 (some 3)
      = some (actionHashSpec (fun l => l) [0x81, 0xa1, 0x61, 0x01]
          ('0' :: 'x' :: List.replicate 40 'a') (5 : ℤ).toNat
          ((some (3 : ℤ)).map Int.toNat)) := by
  refine ⟨Or.inr (by decide), by decide, ?_⟩
  exact (claim_C1_actionHash (fun l => l) [0x81, 0xa1, 0x61, 0x01]
    ('0' :: 'x' :: List.replicate 40 'a') 5 (some 3)
    (Or.inr (by decide)) (by decide)
    (fun e h => by cases h; decide)).1

/-- C10: `actionHash` (and hence `SignL1Action`, which calls it) reaches a
panic branch exactly when the nonce is negative or a present expiry is
negative: under the preconditions `nonce ≥ 0` and `expiresAfter ≥ 0` it
always returns a digest. -/
theorem claim_C10_no_panic (keccak : List ℕ → List ℕ) (packed : List ℕ)
    (vault : List Char) (nonce : ℤ) (expiry : Option ℤ) :
    (actionHash keccak packed vault nonce expiry).isSome = true
      ↔ (0 ≤ nonce ∧ ∀ e, expiry = some e → 0 ≤ e) := by
  unfold actionHash
  by_cases hn : nonce < 0
  · rw [if_pos hn]
    simp only [Option.isSome_none, Bool.false_eq_true, false_iff]
    intro h
    omega
  · rw [if_neg hn]
    cases expiry with
    | none =>
      simp only [Option.isSome_some, true_iff]
      exact ⟨by omega, by intro e h; cases h⟩
    | some e =>
      by_cases hee : e < 0
      · simp only [hee, if_true, Option.isSome_none, Bool.false_eq_true, false_iff]
        intro h
        have := h.2 e rfl
        omega
      · simp only [hee, if_false, Option.isSome_some, true_iff]
        exact ⟨by omega, by intro x h; cases h; omega⟩

/-- Witness for C10 at a concrete input: nonce 5 and expiry 3 are
accepted, so no panic branch is reached. -/
theorem claim_C10_no_panic_witness :
    (actionHash (fun l => l) [] [] 5 (some 3)).isSome = true :=
  (claim_C10_no_panic (fun l => l) [] [] 5 (some 3)).mpr
    ⟨by decide, fun e h => by cases h; decide⟩

/-- C2, failing input: the byte sequence `ce 00 da 00 41` is the msgpack
encoding of the unsigned integer 14286913 under the compact-ints encoder
(for example a cancel action's order id) and contains no str16 string
header at all, yet `convertStr16ToStr8` treats the `0xda` payload byte as
a header and rewrites the sequence, changing bytes the claim (and the
function's own doc comment) says are left unchanged. -/
theorem claim_C2_convert_corrupts :
    convertStr16ToStr8 [0xce, 0x00, 0xda, 0x00, 0x41] = [0xce, 0x00, 0xd9, 0x41]
    ∧ convertStr16ToStr8 [0xce, 0x00, 0xda, 0x00, 0x41]
        ≠ [0xce, 0x00, 0xda, 0x00, 0x41] := by
  decide

/-- C4: `roundToSignificantFigures` agrees with the spec's sig-fig rule for
every rational price and every non-negative sig-fig count: zero maps to
zero; when the integer-digit count of `⌊|price|⌋` (counted as 1 when
`|price| < 1`) reaches `sigFigs` the result is `sign(price) · ⌊|price|⌋`
exactly; otherwise `|price|` is rounded half away from zero to
`sigFigs − digitCount` decimals and the sign is restored.  In particular
`roundToSignificantFigures 110454 5 = 110454` and
`roundToSignificantFigures 0.12 2 = 0.1`. -/
theorem claim_C4_sigfig_rounding :
    (∀ (price : ℚ) (s : ℕ),
      roundToSignificantFigures price (s : ℤ) = sigFigSpec price s)
    ∧ roundToSignificantFigures 110454 5 = 110454
    ∧ roundToSignificantFigures (12 / 100 : ℚ) 2 = (1 / 10 : ℚ) := by
  refine ⟨rtsf_eq_spec, ?_, ?_⟩
  · have h2 : ⌊|(110454 : ℚ)|⌋ = 110454 := by norm_num
    have h3 : countDigits (110454 : ℤ).toNat = 6 := by decide
    simp only [roundToSignificantFigures, h2, h3]
    norm_num
  · have ha : |(12 / 100 : ℚ)| = 12 / 100 := by
      rw [abs_of_nonneg]
      norm_num
    have h2 : ⌊(12 / 100 : ℚ)⌋ = 0 := by norm_num
    simp only [roundToSignificantFigures, ha, h2, roundToDecimals, goRound]
    norm_num

theorem filteredMessage_foldl {α : Type} (message : String → Option α)
    (types : List TDField) (acc : String → Option α) (k : String) :
    (types.foldl
      (fun acc t =>
        match message t.name with
        | some v => insertField t.name v acc
        | none => acc)
      acc) k
    = if (types.any (fun t => t.name = k) && (message k).isSome) = true
      then message k else acc k := by
  induction types generalizing acc with
  | nil => simp
  | cons t ts ih =>
    rw [List.foldl_cons, ih]
    by_cases hts : (ts.any (fun u => u.name = k) && (message k).isSome) = true
    · rw [if_pos hts, if_pos (by simp_all)]
    · rw [if_neg hts]
      by_cases hname : t.name = k
      · subst hname
        cases hmv : message t.name with
        | some v =>
          simp only [hmv, insertField, if_pos rfl]
          simp [hmv]
        | none =>
          simp only [hmv]
          rw [if_neg (by simp [hmv])]
      · have hc : ¬ (((t :: ts).any fun u => u.name = k) && (message k).isSome) = true := by
          intro hcontra
          apply hts
          simp only [List.any_cons] at hcontra
          rcases (Bool.and_eq_true _ _).mp hcontra with ⟨hor, hsome⟩
          rcases (Bool.or_eq_true _ _).mp hor with h1 | h1
          · exact absurd (of_decide_eq_true h1) hname
          · exact (Bool.and_eq_true _ _).mpr ⟨h1, hsome⟩
        cases hmv : message t.name with
        | some v =>
          simp only [hmv, insertField, if_neg (Ne.symm hname)]
          rw [if_neg hc]
        | none =>
          simp only [hmv]
          rw [if_neg hc]

theorem filteredMessage_eq {α : Type} (types : List TDField)
    (message : String → Option α) :
    filteredMessage types message
      = fun k => if types.any (fun t => t.name = k) then message k else none := by
  funext k
  rw [filteredMessage, filteredMessage_foldl]
  by_cases hany : types.any (fun t => t.name = k) = true
  · rw [if_pos hany]
    cases hmk : message k with
    | some v => rw [if_pos (by simp [hany, hmk])]
    | none => rw [if_neg (by simp [hmk])]
  · rw [if_neg hany, if_neg (by simp_all)]

/-- The concrete `approveAgent` action map built by `SignAgent`
(signing.go) before `SignUserSignedAction` augments it. -/
def cexAgentMessage : String → Option String := fun k =>
  if k = "type" then some "approveAgent"
  else if k = "agentAddress" then some "0x1111111111111111111111111111111111111111"
  else if k = "agentName" then some "agent"
  else if k = "nonce" then some "1"
  else none

/-- C3, amended: the lenient typed-data hash equals `HashStruct` applied to
the message restricted to the primary type's declared fields, so inserting
a field whose name is not declared — in particular `signatureChainId`,
which no payload type in the repository declares — leaves the digest
unchanged.  (The other submission-time field, `hyperliquidChain`, is
declared by the user-signed payload types and does enter the digest; see
the counterexample.) -/
theorem claim_C3_lenient_hash {α β : Type}
    (hashStruct : String → (String → Option α) → β)
    (types : String → List TDField) (primaryType : String)
    (message : String → Option α) (k : String) (v : α)
    (hk : ∀ t ∈ types primaryType, t.name ≠ k) :
    hashStructLenient hashStruct types primaryType message
      = hashStruct primaryType
          (fun j => if (types primaryType).any (fun t => t.name = j)
                    then message j else none)
    ∧ hashStructLenient hashStruct types primaryType (insertField k v message)
      = hashStructLenient hashStruct types primaryType message := by
  constructor
  · rw [hashStructLenient, filteredMessage_eq]
  · rw [hashStructLenient, hashStructLenient, filteredMessage_eq, filteredMessage_eq]
    congr 1
    funext j
    by_cases hany : (types primaryType).any (fun t => t.name = j) = true
    · rw [if_pos hany, if_pos hany]
      have hjk : j ≠ k := by
        rcases List.any_eq_true.mp hany with ⟨t, ht, hname⟩
        have := hk t ht
        intro heq
        exact this (by rw [of_decide_eq_true hname, heq])
      rw [insertField, if_neg hjk]
    · rw [if_neg hany, if_neg hany]

/-- C3, counterexample: with `SignAgent`'s payload types the field
`hyperliquidChain` added by `SignUserSignedAction` survives the filtering
and is part of the map handed to `HashStruct`, so the claim that the added
submission-time fields do not change the digest fails for it: the filtered
message with the augmentation differs from the filtered message without
it. -/
theorem claim_C3_hyperliquidChain_counterexample :
    filteredMessage signAgentPayloadTypes
        (signUserSignedAugment cexAgentMessage true) "hyperliquidChain"
      = some "Mainnet"
    ∧ filteredMessage signAgentPayloadTypes cexAgentMessage "hyperliquidChain"
      = none
    ∧ filteredMessage signAgentPayloadTypes (signUserSignedAugment cexAgentMessage true)
      ≠ filteredMessage signAgentPayloadTypes cexAgentMessage := by
  have e1 : filteredMessage signAgentPayloadTypes
      (signUserSignedAugment cexAgentMessage true) "hyperliquidChain"
      = some "Mainnet" := rfl
  have e2 : filteredMessage signAgentPayloadTypes cexAgentMessage "hyperliquidChain"
      = none := rfl
  refine ⟨e1, e2, fun h => ?_⟩
  have h2 := congrFun h "hyperliquidChain"
  rw [e1, e2] at h2
  exact Option.noConfusion h2

/-- Witness for C3 at a concrete input: `signatureChainId` is not among
`SignAgent`'s declared payload types, and inserting it into the agent
message does not change the lenient hash. -/
theorem claim_C3_lenient_hash_witness :
    (∀ t ∈ signAgentPayloadTypes, t.name ≠ "signatureChainId")
    ∧ hashStructLenient (fun pt m => (pt, m "agentName"))
        (fun _ => signAgentPayloadTypes) "HyperliquidTransaction:ApproveAgent"
        (insertField "signatureChainId" "0x66eee" cexAgentMessage)
      = hashStructLenient (fun pt m => (pt, m "agentName"))
        (fun _ => signAgentPayloadTypes) "HyperliquidTransaction:ApproveAgent"
        cexAgentMessage := by
  refine ⟨by decide, ?_⟩
  exact (claim_C3_lenient_hash (fun pt m => (pt, m "agentName"))
    (fun _ => signAgentPayloadTypes) "HyperliquidTransaction:ApproveAgent"
    cexAgentMessage "signatureChainId" "0x66eee" (by decide)).2

/-- C6, counterexample: with a configured vault, a non-map (struct) action
whose type is `usdClassTransfer` — exactly what the `UsdClassTransfer`
exchange method builds in the struct-action generation of the code — gets
`vaultAddress = vault` from `postAction`, not `null` as the claim
requires. -/
theorem claim_C6_structAction_counterexample :
    postActionVaultField "0x1" (.structAction "usdClassTransfer") = .vault "0x1"
    ∧ postedActionType (.structAction "usdClassTransfer") = some "usdClassTransfer"
    ∧ postActionVaultField "0x1" (.structAction "usdClassTransfer") ≠ .null := by
  refine ⟨rfl, rfl, fun h => VaultField.noConfusion h⟩

/-- C6, amended: the envelope's `vaultAddress` is absent when no vault is
configured; with a vault configured it is `null` for a map action whose
`"type"` entry is `"usdClassTransfer"` and the configured vault otherwise
— in particular a struct action always gets the vault attached, whatever
its type. -/
theorem claim_C6_vault_field :
    ∀ (vaultCfg : String) (action : PostedAction),
      postActionVaultField vaultCfg action = amendedVaultField vaultCfg action := by
  intro v a
  unfold postActionVaultField amendedVaultField
  by_cases hv : v = ""
  · rw [if_pos hv, if_pos hv]
  · rw [if_neg hv, if_neg hv]
    cases a with
    | mapAction t =>
      by_cases ht : t = some "usdClassTransfer"
      · simp [ht]
      · simp [ht]
    | structAction t => rfl

/-- C7: every `nextNonce` step returns `max(now, last + 1)`; across any
sequence of calls (concurrent calls linearize through the CAS loop) the
returned nonces are pairwise distinct and strictly increasing, and every
nonce returned after the state is seeded with `SetLastNonce n` is
strictly greater than `n`. -/
theorem claim_C7_nonce_monotone :
    ∀ (last now : ℤ) (nows : List ℤ),
      nextNonce last now = max now (last + 1)
      ∧ List.Pairwise (· < ·) (nextNonceRun last nows)
      ∧ (nextNonceRun last nows).Forall (fun x => last < x) := by
  have hstep : ∀ last now : ℤ, last < nextNonce last now := by
    intro last now
    unfold nextNonce
    split <;> omega
  have hforall : ∀ (nows : List ℤ) (last : ℤ),
      (nextNonceRun last nows).Forall (fun x => last < x) := by
    intro nows
    induction nows with
    | nil => intro last; simp [nextNonceRun]
    | cons now rest ih =>
      intro last
      rw [nextNonceRun]
      rw [List.forall_cons]
      refine ⟨hstep last now, ?_⟩
      exact (ih (nextNonce last now)).imp (fun x hx => lt_trans (hstep last now) hx)
  have hpair : ∀ (nows : List ℤ) (last : ℤ),
      List.Pairwise (· < ·) (nextNonceRun last nows) := by
    intro nows
    induction nows with
    | nil => intro last; simp [nextNonceRun]
    | cons now rest ih =>
      intro last
      rw [nextNonceRun]
      refine List.Pairwise.cons ?_ (ih (nextNonce last now))
      intro x hx
      exact (List.forall_iff_forall_mem.mp (hforall rest (nextNonce last now))) x hx
  intro last now nows
  refine ⟨?_, hpair nows last, hforall nows last⟩
  unfold nextNonce
  split <;> omega

/-- C8, counterexample: the empty string is accepted by `normalizeCloid`
as "no cloid" (`ok none`) even though its hex body has 0 ≠ 32 characters,
while prefixing it with `0x` is rejected — so both the
`normalize(s) = normalize("0x" + s)` law and the wrong-length-rejection
law fail at `s = ""`. -/
theorem claim_C8_empty_counterexample :
    normalizeCloid (some []) = Except.ok none
    ∧ normalizeCloid (some ['0', 'x']) = Except.error ()
    ∧ normalizeCloid (some []) ≠ normalizeCloid (some ('0' :: 'x' :: ([] : List Char))) := by
  have e1 : normalizeCloid (some []) = Except.ok none := rfl
  have e2 : normalizeCloid (some ('0' :: 'x' :: ([] : List Char))) = Except.error () := rfl
  refine ⟨e1, e2, fun h => ?_⟩
  rw [e1, e2] at h
  exact Except.noConfusion h

/-- C8, amended: `normalizeCloid` is idempotent on accepted values; for
every non-empty unprefixed input, normalizing equals normalizing the
`0x`-prefixed form; and every non-empty input whose normalized form does
not have length 34 is rejected. -/
theorem claim_C8_cloid_normalization :
    (∀ s r, normalizeCloid (some s) = .ok (some r) →
      normalizeCloid (some r) = .ok (some r))
    ∧ (∀ s : List Char, s ≠ [] → startsWith0x s = false →
        normalizeCloid (some s) = normalizeCloid (some ('0' :: 'x' :: s)))
    ∧ (∀ s : List Char, s ≠ [] →
        (if startsWith0x s then s else '0' :: 'x' :: s).length ≠ 34 →
        normalizeCloid (some s) = .error ()) := by
  refine ⟨?_, ?_, ?_⟩
  · intro s r h
    simp only [normalizeCloid] at h ⊢
    by_cases hs : s = []
    · rw [if_pos hs] at h
      simp at h
    · rw [if_neg hs] at h
      set cv := if startsWith0x s then s else '0' :: 'x' :: s with hcv
      by_cases hlen : cv.length ≠ 34
      · rw [if_pos hlen] at h
        simp at h
      · rw [if_neg hlen] at h
        by_cases hhex : ¬ hexDecodeOk (cv.drop 2) = true
        · rw [if_pos hhex] at h
          simp at h
        · rw [if_neg hhex] at h
          simp only [Except.ok.injEq, Option.some.injEq] at h
          subst h
          have hstarts : startsWith0x cv = true := by
            rw [hcv]
            by_cases hp : startsWith0x s = true
            · rw [if_pos hp]
              exact hp
            · rw [if_neg hp]
              rfl
          have hne : ¬ cv = [] := by
            intro hemp
            rw [hemp] at hlen
            simp at hlen
          rw [if_neg hne]
          have hcve : (if startsWith0x cv then cv else '0' :: 'x' :: cv) = cv := by
            rw [hstarts]
            simp
          rw [hcve, if_neg hlen, if_neg hhex]
  · intro s hs hpre
    simp only [normalizeCloid]
    rw [if_neg hs, if_neg (by simp : ¬ ('0' :: 'x' :: s) = [])]
    rw [hpre]
    simp only [Bool.false_eq_true, if_false]
    have h0x : startsWith0x ('0' :: 'x' :: s) = true := rfl
    rw [h0x]
    simp
  · intro s hs hlen
    simp only [normalizeCloid]
    rw [if_neg hs, if_pos hlen]

/-- Witness for C8 at concrete inputs: a 32-hex-character cloid with and
without the prefix, and a 1-character reject. -/
theorem claim_C8_cloid_normalization_witness :
    normalizeCloid (some ('0' :: 'x' :: List.replicate 32 'a'))
      = Except.ok (some ('0' :: 'x' :: List.replicate 32 'a'))
    ∧ normalizeCloid (some (List.replicate 32 'a'))
      = normalizeCloid (some ('0' :: 'x' :: List.replicate 32 'a'))
    ∧ normalizeCloid (some ['a']) = Except.error () := by
  refine ⟨claim_C8_cloid_normalization.1 (List.replicate 32 'a')
      ('0' :: 'x' :: List.replicate 32 'a') rfl,
    claim_C8_cloid_normalization.2.1 (List.replicate 32 'a') (by decide) rfl,
    claim_C8_cloid_normalization.2.2 ['a'] (by decide) (by decide)⟩

/-- C9, counterexample: after a reconnect episode with one failed attempt
(sleeping 1 s) ends in success, the next episode's first wait is 2 s, not
1 s — the backoff is not reset on a successful reconnect. -/
theorem claim_C9_no_reset_counterexample :
    (reconnectRun 1 initialReconnectWait).1 = [1000]
    ∧ (reconnectRun 1 (reconnectRun 1 initialReconnectWait).2).1 = [2000]
    ∧ (reconnectRun 1 (reconnectRun 1 initialReconnectWait).2).1
        ≠ [initialReconnectWait] := by
  exact ⟨rfl, rfl, fun h => absurd h (by decide)⟩

theorem backoffStep_le (w : ℕ) : backoffStep w ≤ backoffCap := by
  unfold backoffStep backoffCap
  split <;> omega

/-- C9, amended: within a reconnect episode the waits are the iterates of
the double-with-60-second-cap step starting from the current
`reconnectWait` (1 s only when the client is fresh), every wait is at
most 60 s once the entry wait is, the first wait is the entry wait, and
the episode ends with `reconnectWait` equal to the next iterate — it is
not reset to 1 s on success. -/
theorem claim_C9_backoff (f w : ℕ) (hw : w ≤ backoffCap) :
    (reconnectRun f w).1 = (List.range f).map (fun i => backoffStep^[i] w)
    ∧ (reconnectRun f w).2 = backoffStep^[f] w
    ∧ (reconnectRun f w).1.Forall (fun s => s ≤ backoffCap)
    ∧ (0 < f → (reconnectRun f w).1.head? = some w) := by
  induction f generalizing w with
  | zero =>
    refine ⟨rfl, rfl, by simp [reconnectRun], by intro h; omega⟩
  | succ g ih =>
    obtain ⟨ih1, ih2, ih3, _⟩ := ih (backoffStep w) (backoffStep_le w)
    refine ⟨?_, ?_, ?_, ?_⟩
    · rw [reconnectRun]
      simp only [ih1]
      rw [List.range_succ_eq_map, List.map_cons, List.map_map]
      rfl
    · rw [reconnectRun]
      simp only [ih2, Function.iterate_succ_apply]
    · rw [reconnectRun]
      rw [List.forall_cons]
      exact ⟨hw, ih3⟩
    · intro h
      rw [reconnectRun]
      rfl

/-- Witness for C9 at a concrete input: a fresh client (1 s wait) with
three failed attempts keeps every wait below the 60 s cap. -/
theorem claim_C9_backoff_witness :
    initialReconnectWait ≤ backoffCap
    ∧ (reconnectRun 3 initialReconnectWait).1.Forall (fun s => s ≤ backoffCap) := by
  exact ⟨by decide, (claim_C9_backoff 3 initialReconnectWait (by decide)).2.2.1⟩

end Hyperliquid
